import Mathlib

/-!
# Verification of the AI Bulk Image Renamer matching and processing logic

A shallow embedding of the core logic of `src/App.tsx` (together with the
data model of `src/types.ts`): parsing the item-code list, the two-pass
matcher, the gating checks of `handleProcessImages`, and the per-item
asynchronous state transitions driven by the external rename call.

Modelling conventions:
* A `ProcessedImage` keeps the fields relevant to the logic (`id`,
  `originalName`, `newName`, `status`, `errorMessage`); the opaque browser
  objects `file` and `previewUrl` carry no logic and are omitted.
* The JavaScript string primitives used by the source —
  `String.prototype.split('\n')`, `String.prototype.trim()` and
  `String.prototype.startsWith(p)` — are modelled over the character list
  of a Lean `String` (`jsSplitNewline`, `jsTrim`, `jsStartsWith`), so that
  they compute by structural recursion.
* The external `renameImage` call (`services/geminiService`, not part of the
  two source files) is an opaque collaborator; a run is parametrised by an
  `outcome` function giving, for each image id and assigned code, either the
  returned name or a failure (with an optional `Error.message`, `none`
  standing for a thrown non-`Error` value).
* The JavaScript `Map` keyed by image id is an association list with
  `mapSet`/`mapGet` reproducing `Map.set`/`Map.get`.
* JavaScript truthiness tests on strings (`if (matchingCode)`,
  `if (!itemCode)`) are modelled explicitly: `none` and `some ""` both fail
  the test.
* The asynchronous resolutions are serialised (the single UI thread applies
  each `setImages` functional update atomically); a run is parametrised by
  the resolution order, a permutation of the pending images.  The run is the
  trace of image-collection states: the initial state, the state after the
  batch pending → processing transition, and one state per resolved call.
-/

/-! ## JavaScript string primitives -/

/-- Splitting a character list at `'\n'`, accumulating the current chunk in
reverse.  Mirrors `String.prototype.split('\n')`: an empty string yields
`[""]`, separators at either end yield empty chunks. -/
def splitLinesAux (cur : List Char) : List Char → List (List Char)
  | [] => [cur.reverse]
  | c :: cs =>
    if c = '\n' then cur.reverse :: splitLinesAux [] cs
    else splitLinesAux (c :: cur) cs

/-- `s.split('\n')` of JavaScript. -/
def jsSplitNewline (s : String) : List String :=
  (splitLinesAux [] s.data).map fun l => ⟨l⟩

/-- `s.trim()` of JavaScript: drop whitespace from both ends. -/
def jsTrim (s : String) : String :=
  ⟨((s.data.dropWhile Char.isWhitespace).reverse.dropWhile Char.isWhitespace).reverse⟩

/-- `s.startsWith(p)` of JavaScript: `p` is a literal character-wise
prefix of `s` (case-sensitive, no path or extension awareness). -/
def jsStartsWith (s p : String) : Bool :=
  p.data.isPrefixOf s.data

/-! ## Data model (src/types.ts) -/

/-- `status` field of `ProcessedImage` (src/types.ts line 7). -/
inductive Status where
  | pending
  | processing
  | completed
  | error
deriving DecidableEq, Repr

/-- The data model of src/types.ts (`id`, `originalName`, `newName`,
`status`, `errorMessage`); the opaque `file` and `previewUrl` fields are
omitted.  `errorMessage` is optional as in the source. -/
structure ProcessedImage where
  id : String
  originalName : String
  newName : String
  status : Status
  errorMessage : Option String
deriving DecidableEq, Repr

/-- Result of one external `renameImage` call: the resolved name, or a
rejection carrying `some message` when the thrown value was an `Error`
(whose `.message` is the string) and `none` for a non-`Error` value. -/
inductive RenameOutcome where
  | success (name : String)
  | failure (message : Option String)
deriving DecidableEq, Repr

/-! ## Code-list parsing and the two-pass matcher (App.tsx lines 30, 42–66) -/

/-- `itemCodes.split('\n').filter(c => c.trim() !== '')` (App.tsx line 30):
the raw textarea content split on newlines, keeping the lines that are
non-empty after trimming — the kept lines themselves are NOT trimmed. -/
def parseCodes (itemCodes : String) : List String :=
  (jsSplitNewline itemCodes).filter (fun c => jsTrim c ≠ "")

/-- The code list as §3 of the spec describes it, for comparison with
`parseCodes`: "an ordered sequence of trimmed, non-empty strings parsed
from raw input by splitting on line breaks and discarding blank lines". -/
def specParseCodes (itemCodes : String) : List String :=
  ((jsSplitNewline itemCodes).map jsTrim).filter (fun c => c ≠ "")

/-- `Map.set` on an association list keyed by image id: overwrite the value
at an existing key, otherwise append the new entry. -/
def mapSet (m : List (String × String)) (k v : String) : List (String × String) :=
  if m.any (fun p => p.1 = k) then
    m.map (fun p => if p.1 = k then (k, v) else p)
  else
    m ++ [(k, v)]

/-- `Map.get` on the association list: the value at the first entry with the
given key. -/
def mapGet (m : List (String × String)) (k : String) : Option String :=
  (m.find? (fun p => p.1 = k)).map Prod.snd

/-- The predicate of App.tsx line 49:
`codes.find(code => image.originalName.startsWith(code.trim()))`. -/
def codeMatches (img : ProcessedImage) (code : String) : Bool :=
  jsStartsWith img.originalName (jsTrim code)

/-- First matching pass (App.tsx lines 45–55), threading the
`imageToCodeMap` and `unmatchedImages` accumulators through the loop over
`pendingImages`.  `if (matchingCode)` is JavaScript truthiness: a found
code equal to `""` is treated as no match. -/
def firstPassAux (codes : List String) :
    List ProcessedImage → List (String × String) → List ProcessedImage →
    List (String × String) × List ProcessedImage
  | [], m, u => (m, u)
  | img :: rest, m, u =>
    match codes.find? (codeMatches img) with
    | some c =>
      if c = "" then
        firstPassAux codes rest m (u ++ [img])
      else
        firstPassAux codes rest (mapSet m img.id (jsTrim c)) u
    | none => firstPassAux codes rest m (u ++ [img])

/-- First matching pass started from the empty map and empty unmatched
list, as in App.tsx lines 42–43. -/
def firstPass (codes : List String) (pendingImages : List ProcessedImage) :
    List (String × String) × List ProcessedImage :=
  firstPassAux codes pendingImages [] []

/-- Second pass (App.tsx lines 57–66): when some images are unmatched and
exactly one code was supplied, assign `codes[0].trim()` to every unmatched
image and empty the unmatched list. -/
def secondPass (codes : List String) (m : List (String × String))
    (u : List ProcessedImage) : List (String × String) × List ProcessedImage :=
  if u.length > 0 ∧ codes.length = 1 then
    (u.foldl (fun acc img => mapSet acc img.id (jsTrim (codes.headD ""))) m, [])
  else
    (m, u)

/-- Both matching passes in sequence (App.tsx lines 42–66). -/
def matchCodes (codes : List String) (pendingImages : List ProcessedImage) :
    List (String × String) × List ProcessedImage :=
  secondPass codes (firstPass codes pendingImages).1 (firstPass codes pendingImages).2

/-! ## The processing run (App.tsx lines 76–118) -/

/-- The error message of App.tsx line 38. -/
def noCodesMsg : String := "Please provide at least one item code."

/-- The unmatched-images error message of App.tsx lines 70–72: the first
three unmatched original filenames joined by `", "`, then `" and N more"`
when more than three images are unmatched. -/
def unmatchedMsg (unmatchedImages : List ProcessedImage) : String :=
  let unmatchedNames :=
    String.intercalate ", " ((unmatchedImages.map (·.originalName)).take 3)
  let extraMessage :=
    if unmatchedImages.length > 3 then
      " and " ++ toString (unmatchedImages.length - 3) ++ " more"
    else ""
  "Could not find a matching item code for some images (e.g., " ++
    unmatchedNames ++ extraMessage ++
    "). Please ensure image filenames start with a provided item code, or provide only one item code to apply to all images."

/-- App.tsx lines 79–81: the batch functional update marking every pending
image as processing. -/
def markProcessing (imgs : List ProcessedImage) : List ProcessedImage :=
  imgs.map (fun img =>
    if img.status = .pending then { img with status := .processing } else img)

/-- The defensive internal-error message of App.tsx line 88. -/
def internalErrorMsg (image : ProcessedImage) : String :=
  "Internal Error: Could not find item code for " ++ image.originalName ++ "."

/-- App.tsx line 108: `error instanceof Error ? error.message : ...`. -/
def failureMessage : Option String → String
  | some m => m
  | none => "An unknown error occurred during processing."

/-- The new record for one image once its call resolves (App.tsx lines
83–115): `image` is the pending image driving the promise (its `id` keys
the map lookup), `img` the record currently in the collection.  The
defensive branch fires when the map lookup is falsy (`undefined` or `""`);
success sets `status := completed` and the trimmed name, failure sets
`status := error` and the failure's message. -/
def resolveImage (m : List (String × String))
    (outcome : String → String → RenameOutcome)
    (image img : ProcessedImage) : ProcessedImage :=
  match mapGet m image.id with
  | some itemCode =>
    if itemCode = "" then
      { img with status := .error, errorMessage := some (internalErrorMsg image) }
    else
      match outcome image.id itemCode with
      | .success newName =>
        { img with status := .completed, newName := jsTrim newName }
      | .failure e =>
        { img with status := .error, errorMessage := some (failureMessage e) }
  | none =>
    { img with status := .error, errorMessage := some (internalErrorMsg image) }

/-- One functional `setImages` update replacing the single record whose id
matches the target (App.tsx lines 100–104 and 109–113). -/
def updateById (targetId : String) (f : ProcessedImage → ProcessedImage)
    (s : List ProcessedImage) : List ProcessedImage :=
  s.map (fun img => if img.id = targetId then f img else img)

/-- The state update performed when the call for `image` resolves. -/
def stepUpdate (m : List (String × String))
    (outcome : String → String → RenameOutcome)
    (s : List ProcessedImage) (image : ProcessedImage) : List ProcessedImage :=
  updateById image.id (resolveImage m outcome image) s

/-- The trace of intermediate states of a fold: the initial state followed
by the state after each element. -/
def scanStates (f : α → β → α) (b : α) : List β → List α
  | [] => [b]
  | x :: xs => b :: scanStates f (f b x) xs

/-- The final image collection after all calls resolve, in resolution
order `order`. -/
def finalState (m : List (String × String))
    (outcome : String → String → RenameOutcome)
    (images order : List ProcessedImage) : List ProcessedImage :=
  order.foldl (stepUpdate m outcome) (markProcessing images)

/-- The trace of image-collection states of one processing run: the
initial collection, then the batch pending → processing state, then one
state per resolved call. -/
def runTrace (m : List (String × String))
    (outcome : String → String → RenameOutcome)
    (images order : List ProcessedImage) : List (List ProcessedImage) :=
  images :: scanStates (stepUpdate m outcome) (markProcessing images) order

/-- What `handleProcessImages` does to the error banner: left untouched
(early return at line 34), set to a message (lines 38 and 72), or cleared
before a run starts (line 76). -/
inductive ErrOut where
  | untouched
  | set (msg : String)
  | cleared
deriving DecidableEq, Repr

/-- `handleProcessImages` (App.tsx lines 29–120): parse the codes, return
silently when no image is pending, report `noCodesMsg` when the parsed
code list is empty, run both matching passes, report `unmatchedMsg` when
images remain unmatched, and otherwise clear the error and run the batch.
The result pairs the effect on the error banner with the trace of
image-collection states (a singleton trace when nothing is mutated). -/
def handleProcessImages (itemCodes : String) (images : List ProcessedImage)
    (outcome : String → String → RenameOutcome)
    (order : List ProcessedImage) : ErrOut × List (List ProcessedImage) :=
  if (images.filter (fun img => img.status = .pending)).length = 0 then
    (.untouched, [images])
  else if (parseCodes itemCodes).length = 0 then
    (.set noCodesMsg, [images])
  else if (matchCodes (parseCodes itemCodes)
      (images.filter (fun img => img.status = .pending))).2.length > 0 then
    (.set (unmatchedMsg (matchCodes (parseCodes itemCodes)
      (images.filter (fun img => img.status = .pending))).2), [images])
  else
    (.cleared, runTrace (matchCodes (parseCodes itemCodes)
      (images.filter (fun img => img.status = .pending))).1 outcome images order)

/-! ## Derived notions used by the statements -/

/-- The composite effect of a sequence of resolutions on one record: each
resolution whose driving image shares the record's id rewrites the record,
all others leave it alone.  (The per-record view of folding `stepUpdate`
over the resolution order.) -/
def applyAll (m : List (String × String))
    (outcome : String → String → RenameOutcome)
    (order : List ProcessedImage) (img : ProcessedImage) : ProcessedImage :=
  order.foldl (fun acc image =>
    if acc.id = image.id then resolveImage m outcome image acc else acc) img

/-- The record with a given id in a collection (the first one, which is the
only one when ids are distinct). -/
def findById (s : List ProcessedImage) (k : String) : Option ProcessedImage :=
  s.find? (fun i => i.id = k)

/-- Whether `errorMessage` is present and non-empty. -/
def errNonempty (img : ProcessedImage) : Bool :=
  match img.errorMessage with
  | some msg => msg ≠ ""
  | none => false

/-- The spec's terminal-state invariant: exactly one of `newName`
(non-empty) or `errorMessage` (non-empty) is set. -/
def exactlyOneSet (img : ProcessedImage) : Prop :=
  (img.newName ≠ "" ∧ errNonempty img = false) ∨
    (img.newName = "" ∧ errNonempty img = true)

/-- Both `newName` and `errorMessage` set (non-empty). -/
def bothSet (img : ProcessedImage) : Prop :=
  img.newName ≠ "" ∧ errNonempty img = true

/-- Well-formedness of one record: `pending`/`processing` records carry
neither a name nor an error, `completed` records carry a non-empty name
and no error, `error` records carry an empty name and a non-empty
message.  Freshly selected files satisfy this (App.tsx lines 17–24). -/
def wellFormed (img : ProcessedImage) : Prop :=
  match img.status with
  | .pending => img.newName = "" ∧ img.errorMessage = none
  | .processing => img.newName = "" ∧ img.errorMessage = none
  | .completed => img.newName ≠ "" ∧ img.errorMessage = none
  | .error => img.newName = "" ∧ ∃ msg, img.errorMessage = some msg ∧ msg ≠ ""

/-- A well-behaved external outcome: a returned name that is non-empty
after trimming, or a failure whose `Error.message`, when present, is
non-empty. -/
def goodOutcome : RenameOutcome → Prop
  | .success name => jsTrim name ≠ ""
  | .failure e => ∀ msg, e = some msg → msg ≠ ""

/-- No record of the collection is `pending`. -/
def noPending (s : List ProcessedImage) : Prop :=
  ∀ i ∈ s, i.status ≠ .pending

/-- The per-step temporal condition of C6 between two successive states: a
record that was `pending` may only stay `pending` or move to
`processing`; it never jumps straight to a terminal state. -/
def stepOK (s s' : List ProcessedImage) : Prop :=
  ∀ i ∈ s, ∀ i' ∈ s', i.id = i'.id → i.status = .pending →
    (i'.status = .pending ∨ i'.status = .processing)

/-! ## Concrete records used by witnesses and counterexamples -/

/-- A completed record (C10 witness). -/
def w10done : ProcessedImage :=
  { id := "c", originalName := "done.jpg", newName := "x.jpg",
    status := .completed, errorMessage := none }

/-- A pending record (C10 witness). -/
def w10pend : ProcessedImage :=
  { id := "p", originalName := "A1.jpg", newName := "",
    status := .pending, errorMessage := none }

/-- The pending record of the C4 counterexample. -/
def cx4img : ProcessedImage :=
  { id := "i", originalName := "A1.jpg", newName := "",
    status := .pending, errorMessage := none }

/-- Its final record when the service resolves with a whitespace-only
name: `completed`, yet with an empty `newName` and no `errorMessage`. -/
def cx4res : ProcessedImage :=
  { id := "i", originalName := "A1.jpg", newName := "",
    status := .completed, errorMessage := none }

/-- The pending record of the C4 amended witness. -/
def wx4img : ProcessedImage :=
  { id := "i", originalName := "A1.jpg", newName := "",
    status := .pending, errorMessage := none }

/-- Its final record after a successful rename. -/
def wx4res : ProcessedImage :=
  { id := "i", originalName := "A1.jpg", newName := "New.jpg",
    status := .completed, errorMessage := none }

/-- The pending record of the C5 witness. -/
def w5img : ProcessedImage :=
  { id := "p5", originalName := "A1.jpg", newName := "",
    status := .pending, errorMessage := none }

/-- The pending record of the C6 witness. -/
def w6img : ProcessedImage :=
  { id := "p6", originalName := "A1.jpg", newName := "",
    status := .pending, errorMessage := none }

/-! ## Lemmas about the `Map` model -/

theorem find?_overwrite_self (m : List (String × String)) (k v : String)
    (h : m.any (fun p => p.1 = k) = true) :
    List.find? (fun p => p.1 = k)
      (m.map (fun p => if p.1 = k then (k, v) else p)) = some (k, v) := by
  induction m with
  | nil => simp at h
  | cons p m ih =>
    by_cases hp : p.1 = k
    · simp only [List.map_cons, hp, if_true]
      exact List.find?_cons_of_pos _ (by simp)
    · simp only [List.any_cons, Bool.or_eq_true, decide_eq_true_eq] at h
      rcases h with h | h
      · exact absurd h hp
      · simp only [List.map_cons, hp, if_false]
        rw [List.find?_cons_of_neg _ (by simp [hp])]
        exact ih h

theorem find?_overwrite_ne (m : List (String × String)) (k k' v : String)
    (hne : k' ≠ k) :
    List.find? (fun p => p.1 = k)
      (m.map (fun p => if p.1 = k' then (k', v) else p)) =
      List.find? (fun p => p.1 = k) m := by
  induction m with
  | nil => rfl
  | cons p m ih =>
    by_cases hp : p.1 = k'
    · have hpk : ¬ p.1 = k := by rw [hp]; exact hne
      simp only [List.map_cons, hp, if_true]
      rw [List.find?_cons_of_neg _ (by simp [hne]),
        List.find?_cons_of_neg _ (by simp [hpk])]
      exact ih
    · by_cases hpk : p.1 = k
      · simp only [List.map_cons, hp, if_false]
        rw [List.find?_cons_of_pos _ (by simp [hpk]),
          List.find?_cons_of_pos _ (by simp [hpk])]
      · simp only [List.map_cons, hp, if_false]
        rw [List.find?_cons_of_neg _ (by simp [hpk]),
          List.find?_cons_of_neg _ (by simp [hpk])]
        exact ih

theorem mapGet_mapSet_self (m : List (String × String)) (k v : String) :
    mapGet (mapSet m k v) k = some v := by
  unfold mapSet mapGet
  by_cases h : m.any (fun p => p.1 = k)
  · rw [if_pos h, find?_overwrite_self m k v h]
    rfl
  · rw [if_neg h]
    simp only [List.find?_append]
    have hnone : m.find? (fun p => p.1 = k) = none := by
      rw [List.find?_eq_none]
      intro x hx
      simp only [decide_eq_true_eq]
      intro hxk
      exact h (List.any_eq_true.mpr ⟨x, hx, by simp [hxk]⟩)
    rw [hnone]
    simp [List.find?]

theorem mapGet_mapSet_ne (m : List (String × String)) (k k' v : String)
    (hne : k' ≠ k) : mapGet (mapSet m k' v) k = mapGet m k := by
  unfold mapSet mapGet
  by_cases h : m.any (fun p => p.1 = k')
  · rw [if_pos h, find?_overwrite_ne m k k' v hne]
  · rw [if_neg h]
    simp only [List.find?_append]
    have : List.find? (fun p => p.1 = k) [(k', v)] = none := by
      simp [List.find?, hne]
    rw [this]
    cases m.find? (fun p => p.1 = k) <;> simp

theorem mapGet_mapSet_isSome (m : List (String × String)) (k k' v : String)
    (h : (mapGet m k).isSome) : (mapGet (mapSet m k' v) k).isSome := by
  by_cases hk : k' = k
  · subst hk; simp [mapGet_mapSet_self]
  · rwa [mapGet_mapSet_ne m k k' v hk]

/-! ## Lemmas about the first matching pass -/

theorem find?_eq_of_first {α : Type} (p : α → Bool) (pre : List α) (c : α)
    (post : List α) (hpre : ∀ x ∈ pre, ¬ p x) (hc : p c) :
    (pre ++ c :: post).find? p = some c := by
  induction pre with
  | nil => simpa using List.find?_cons_of_pos _ hc
  | cons a pre ih =>
    rw [List.cons_append, List.find?_cons_of_neg _ (hpre a (by simp))]
    exact ih (fun x hx => hpre x (by simp [hx]))

theorem firstPassAux_mapGet_of_not_mem (codes : List String) :
    ∀ (rest : List ProcessedImage) (m : List (String × String))
      (u : List ProcessedImage) (k : String), (∀ x ∈ rest, x.id ≠ k) →
      mapGet (firstPassAux codes rest m u).1 k = mapGet m k := by
  intro rest
  induction rest with
  | nil => intro m u k _; rfl
  | cons img rest ih =>
    intro m u k hk
    have hid : img.id ≠ k := hk img (by simp)
    have hk' : ∀ x ∈ rest, x.id ≠ k := fun x hx => hk x (by simp [hx])
    cases hfind : codes.find? (codeMatches img) with
    | none => simp only [firstPassAux, hfind]; exact ih _ _ _ hk'
    | some c =>
      by_cases hc : c = ""
      · simp only [firstPassAux, hfind, hc, if_true]
        exact ih _ _ _ hk'
      · simp only [firstPassAux, hfind, hc, if_false]
        rw [ih _ _ _ hk']
        exact mapGet_mapSet_ne _ _ _ _ hid

theorem firstPassAux_unmatched_decomp (codes : List String) :
    ∀ (rest : List ProcessedImage) (m : List (String × String))
      (u : List ProcessedImage),
      ∃ u', (firstPassAux codes rest m u).2 = u ++ u' := by
  intro rest
  induction rest with
  | nil => intro m u; exact ⟨[], by simp [firstPassAux]⟩
  | cons img rest ih =>
    intro m u
    cases hfind : codes.find? (codeMatches img) with
    | none =>
      obtain ⟨u', hu'⟩ := ih m (u ++ [img])
      exact ⟨[img] ++ u', by simp only [firstPassAux, hfind]; simp [hu']⟩
    | some c =>
      by_cases hc : c = ""
      · obtain ⟨u', hu'⟩ := ih m (u ++ [img])
        exact ⟨[img] ++ u', by simp only [firstPassAux, hfind, hc, if_true]; simp [hu']⟩
      · obtain ⟨u', hu'⟩ := ih (mapSet m img.id (jsTrim c)) u
        exact ⟨u', by simp only [firstPassAux, hfind, hc, if_false]; exact hu'⟩

theorem firstPassAux_mem_unmatched (codes : List String)
    (hcodes : ∀ c ∈ codes, c ≠ "") :
    ∀ (rest : List ProcessedImage) (m : List (String × String))
      (u : List ProcessedImage) (x : ProcessedImage),
      (x ∈ (firstPassAux codes rest m u).2 ↔
        x ∈ u ∨ (x ∈ rest ∧ codes.find? (codeMatches x) = none)) := by
  intro rest
  induction rest with
  | nil => intro m u x; simp [firstPassAux]
  | cons img rest ih =>
    intro m u x
    cases hfind : codes.find? (codeMatches img) with
    | none =>
      simp only [firstPassAux, hfind]
      rw [ih]
      constructor
      · rintro (hx | ⟨hx, hn⟩)
        · rcases List.mem_append.mp hx with hx | hx
          · exact Or.inl hx
          · simp only [List.mem_singleton] at hx
            subst hx
            exact Or.inr ⟨by simp, hfind⟩
        · exact Or.inr ⟨by simp [hx], hn⟩
      · rintro (hx | ⟨hx, hn⟩)
        · exact Or.inl (List.mem_append.mpr (Or.inl hx))
        · rcases List.mem_cons.mp hx with rfl | hx
          · exact Or.inl (List.mem_append.mpr (Or.inr (by simp)))
          · exact Or.inr ⟨hx, hn⟩
    | some c =>
      have hc : c ≠ "" := hcodes c (List.mem_of_find?_eq_some hfind)
      simp only [firstPassAux, hfind, hc, if_false]
      rw [ih]
      constructor
      · rintro (hx | ⟨hx, hn⟩)
        · exact Or.inl hx
        · exact Or.inr ⟨by simp [hx], hn⟩
      · rintro (hx | ⟨hx, hn⟩)
        · exact Or.inl hx
        · rcases List.mem_cons.mp hx with rfl | hx
          · rw [hn] at hfind; exact absurd hfind (by simp)
          · exact Or.inr ⟨hx, hn⟩

theorem firstPassAux_mapGet_matched (codes : List String)
    (hcodes : ∀ c ∈ codes, c ≠ "") :
    ∀ (rest : List ProcessedImage) (m : List (String × String))
      (u : List ProcessedImage) (img : ProcessedImage) (c : String),
      img ∈ rest → (rest.map (·.id)).Nodup →
      codes.find? (codeMatches img) = some c →
      mapGet (firstPassAux codes rest m u).1 img.id = some (jsTrim c) := by
  intro rest
  induction rest with
  | nil => intro m u img c h; exact absurd h (by simp)
  | cons y rest ih =>
    intro m u img c hmem hnd hfind
    have hnd' : (rest.map (·.id)).Nodup := (List.nodup_cons.mp hnd).2
    have hynotin : y.id ∉ rest.map (·.id) := (List.nodup_cons.mp hnd).1
    rcases List.mem_cons.mp hmem with rfl | hmem
    · have hc : c ≠ "" := hcodes c (List.mem_of_find?_eq_some hfind)
      simp only [firstPassAux, hfind, hc, if_false]
      rw [firstPassAux_mapGet_of_not_mem codes rest _ _ _
        (fun x hx hxid => hynotin (List.mem_map.mpr ⟨x, hx, hxid⟩))]
      exact mapGet_mapSet_self _ _ _
    · cases hfindy : codes.find? (codeMatches y) with
      | none =>
        simp only [firstPassAux, hfindy]
        exact ih _ _ _ _ hmem hnd' hfind
      | some cy =>
        have hcy : cy ≠ "" := hcodes cy (List.mem_of_find?_eq_some hfindy)
        simp only [firstPassAux, hfindy, hcy, if_false]
        exact ih _ _ _ _ hmem hnd' hfind

theorem firstPassAux_mapGet_unmatched (codes : List String) :
    ∀ (rest : List ProcessedImage) (m : List (String × String))
      (u : List ProcessedImage) (img : ProcessedImage),
      img ∈ rest → (rest.map (·.id)).Nodup →
      codes.find? (codeMatches img) = none →
      mapGet (firstPassAux codes rest m u).1 img.id = mapGet m img.id := by
  intro rest
  induction rest with
  | nil => intro m u img h; exact absurd h (by simp)
  | cons y rest ih =>
    intro m u img hmem hnd hfind
    have hnd' : (rest.map (·.id)).Nodup := (List.nodup_cons.mp hnd).2
    have hynotin : y.id ∉ rest.map (·.id) := (List.nodup_cons.mp hnd).1
    rcases List.mem_cons.mp hmem with rfl | hmem
    · simp only [firstPassAux, hfind]
      exact firstPassAux_mapGet_of_not_mem codes rest _ _ _
        (fun x hx hxid => hynotin (List.mem_map.mpr ⟨x, hx, hxid⟩))
    · have hyid : y.id ≠ img.id := fun h =>
        hynotin (List.mem_map.mpr ⟨img, hmem, h.symm⟩)
      cases hfindy : codes.find? (codeMatches y) with
      | none =>
        simp only [firstPassAux, hfindy]
        exact ih _ _ _ hmem hnd' hfind
      | some cy =>
        by_cases hcy : cy = ""
        · simp only [firstPassAux, hfindy, hcy, if_true]
          exact ih _ _ _ hmem hnd' hfind
        · simp only [firstPassAux, hfindy, hcy, if_false]
          rw [ih _ _ _ hmem hnd' hfind]
          exact mapGet_mapSet_ne _ _ _ _ hyid

theorem firstPassAux_mapGet_isSome (codes : List String) :
    ∀ (rest : List ProcessedImage) (m : List (String × String))
      (u : List ProcessedImage) (k : String), (mapGet m k).isSome →
      (mapGet (firstPassAux codes rest m u).1 k).isSome := by
  intro rest
  induction rest with
  | nil => intro m u k h; exact h
  | cons img rest ih =>
    intro m u k h
    cases hfind : codes.find? (codeMatches img) with
    | none => simp only [firstPassAux, hfind]; exact ih _ _ _ h
    | some c =>
      by_cases hc : c = ""
      · simp only [firstPassAux, hfind, hc, if_true]; exact ih _ _ _ h
      · simp only [firstPassAux, hfind, hc, if_false]
        exact ih _ _ _ (mapGet_mapSet_isSome _ _ _ _ h)

theorem firstPassAux_cover (codes : List String) :
    ∀ (rest : List ProcessedImage) (m : List (String × String))
      (u : List ProcessedImage) (img : ProcessedImage), img ∈ rest →
      (mapGet (firstPassAux codes rest m u).1 img.id).isSome ∨
        img ∈ (firstPassAux codes rest m u).2 := by
  intro rest
  induction rest with
  | nil => intro m u img h; exact absurd h (by simp)
  | cons y rest ih =>
    intro m u img hmem
    rcases List.mem_cons.mp hmem with rfl | hmem
    · cases hfind : codes.find? (codeMatches img) with
      | none =>
        right
        simp only [firstPassAux, hfind]
        obtain ⟨u', hu'⟩ := firstPassAux_unmatched_decomp codes rest m (u ++ [img])
        rw [hu']
        simp
      | some c =>
        by_cases hc : c = ""
        · right
          simp only [firstPassAux, hfind, hc, if_true]
          obtain ⟨u', hu'⟩ := firstPassAux_unmatched_decomp codes rest m (u ++ [img])
          rw [hu']
          simp
        · left
          simp only [firstPassAux, hfind, hc, if_false]
          exact firstPassAux_mapGet_isSome codes rest _ _ _
            (by rw [mapGet_mapSet_self]; rfl)
    · cases hfind : codes.find? (codeMatches y) with
      | none => simp only [firstPassAux, hfind]; exact ih _ _ _ hmem
      | some c =>
        by_cases hc : c = ""
        · simp only [firstPassAux, hfind, hc, if_true]; exact ih _ _ _ hmem
        · simp only [firstPassAux, hfind, hc, if_false]; exact ih _ _ _ hmem

theorem mapSet_values (m : List (String × String)) (k v : String)
    (P : String → Prop) (hv : P v) (hm : ∀ p ∈ m, P p.2) :
    ∀ p ∈ mapSet m k v, P p.2 := by
  intro p hp
  unfold mapSet at hp
  by_cases h : m.any (fun q => q.1 = k)
  · rw [if_pos h] at hp
    obtain ⟨q, hq, hqe⟩ := List.mem_map.mp hp
    by_cases hqk : q.1 = k
    · rw [if_pos hqk] at hqe; rw [← hqe]; exact hv
    · rw [if_neg hqk] at hqe; rw [← hqe]; exact hm q hq
  · rw [if_neg h] at hp
    rcases List.mem_append.mp hp with hp | hp
    · exact hm p hp
    · simp only [List.mem_singleton] at hp; rw [hp]; exact hv

theorem firstPassAux_values (codes : List String) (P : String → Prop)
    (hcodes : ∀ c ∈ codes, P (jsTrim c)) :
    ∀ (rest : List ProcessedImage) (m : List (String × String))
      (u : List ProcessedImage), (∀ p ∈ m, P p.2) →
      ∀ p ∈ (firstPassAux codes rest m u).1, P p.2 := by
  intro rest
  induction rest with
  | nil => intro m u hm; exact hm
  | cons img rest ih =>
    intro m u hm
    cases hfind : codes.find? (codeMatches img) with
    | none => simp only [firstPassAux, hfind]; exact ih _ _ hm
    | some c =>
      by_cases hc : c = ""
      · simp only [firstPassAux, hfind, hc, if_true]; exact ih _ _ hm
      · simp only [firstPassAux, hfind, hc, if_false]
        exact ih _ _ (mapSet_values m img.id (jsTrim c) P
          (hcodes c (List.mem_of_find?_eq_some hfind)) hm)

/-! ## Lemmas about the second pass -/

theorem secondPass_of_not_single (codes : List String)
    (m : List (String × String)) (u : List ProcessedImage)
    (h : codes.length ≠ 1) : secondPass codes m u = (m, u) := by
  unfold secondPass
  rw [if_neg]
  rintro ⟨-, h1⟩
  exact h h1

theorem secondPass_of_nil (codes : List String) (m : List (String × String)) :
    secondPass codes m [] = (m, []) := by
  unfold secondPass
  rw [if_neg]
  rintro ⟨h0, -⟩
  simp at h0

theorem foldl_mapSet_const_get (v : String) :
    ∀ (u : List ProcessedImage) (m : List (String × String)) (k : String),
      mapGet m k = some v →
      mapGet (u.foldl (fun acc i => mapSet acc i.id v) m) k = some v := by
  intro u
  induction u with
  | nil => intro m k h; exact h
  | cons i u ih =>
    intro m k h
    simp only [List.foldl_cons]
    apply ih
    by_cases hk : i.id = k
    · rw [hk, mapGet_mapSet_self]
    · rw [mapGet_mapSet_ne _ _ _ _ hk]; exact h

theorem foldl_mapSet_mem_get (v : String) :
    ∀ (u : List ProcessedImage) (m : List (String × String))
      (img : ProcessedImage), img ∈ u →
      mapGet (u.foldl (fun acc i => mapSet acc i.id v) m) img.id = some v := by
  intro u
  induction u with
  | nil => intro m img h; exact absurd h (by simp)
  | cons i u ih =>
    intro m img hmem
    simp only [List.foldl_cons]
    rcases List.mem_cons.mp hmem with rfl | hmem
    · exact foldl_mapSet_const_get v u _ _ (mapGet_mapSet_self _ _ _)
    · exact ih _ _ hmem

theorem foldl_mapSet_isSome (v : String) :
    ∀ (u : List ProcessedImage) (m : List (String × String)) (k : String),
      (mapGet m k).isSome →
      (mapGet (u.foldl (fun acc i => mapSet acc i.id v) m) k).isSome := by
  intro u
  induction u with
  | nil => intro m k h; exact h
  | cons i u ih =>
    intro m k h
    simp only [List.foldl_cons]
    exact ih _ _ (mapGet_mapSet_isSome _ _ _ _ h)

theorem foldl_mapSet_values (v : String) (P : String → Prop) (hv : P v) :
    ∀ (u : List ProcessedImage) (m : List (String × String)),
      (∀ p ∈ m, P p.2) →
      ∀ p ∈ u.foldl (fun acc i => mapSet acc i.id v) m, P p.2 := by
  intro u
  induction u with
  | nil => intro m hm; exact hm
  | cons i u ih =>
    intro m hm
    simp only [List.foldl_cons]
    exact ih _ (mapSet_values m i.id v P hv hm)

/-! ## Lemmas about the combined matcher -/

theorem matchCodes_values (codes : List String)
    (pendingImages : List ProcessedImage) (P : String → Prop)
    (hcodes : ∀ c ∈ codes, P (jsTrim c)) :
    ∀ p ∈ (matchCodes codes pendingImages).1, P p.2 := by
  have h1 : ∀ p ∈ (firstPass codes pendingImages).1, P p.2 :=
    firstPassAux_values codes P hcodes pendingImages [] [] (by simp)
  unfold matchCodes secondPass
  by_cases h : (firstPass codes pendingImages).2.length > 0 ∧ codes.length = 1
  · rw [if_pos h]
    obtain ⟨c, hc⟩ := List.length_eq_one.mp h.2
    apply foldl_mapSet_values _ P _ _ _ h1
    rw [hc]
    exact hcodes c (by simp [hc])
  · rw [if_neg h]
    exact h1

theorem secondPass_cases (codes : List String) (m : List (String × String))
    (u : List ProcessedImage) :
    (u.length > 0 ∧ codes.length = 1 ∧ secondPass codes m u =
        (u.foldl (fun acc img => mapSet acc img.id (jsTrim (codes.headD ""))) m, [])) ∨
      (¬(u.length > 0 ∧ codes.length = 1) ∧ secondPass codes m u = (m, u)) := by
  by_cases hif : u.length > 0 ∧ codes.length = 1
  · exact Or.inl ⟨hif.1, hif.2, by unfold secondPass; rw [if_pos hif]⟩
  · exact Or.inr ⟨hif, by unfold secondPass; rw [if_neg hif]⟩

theorem matchCodes_presence (codes : List String)
    (pendingImages : List ProcessedImage) (img : ProcessedImage)
    (hmem : img ∈ pendingImages)
    (hu : (matchCodes codes pendingImages).2 = []) :
    (mapGet (matchCodes codes pendingImages).1 img.id).isSome := by
  have hcov : (mapGet (firstPass codes pendingImages).1 img.id).isSome ∨
      img ∈ (firstPass codes pendingImages).2 :=
    firstPassAux_cover codes pendingImages [] [] img hmem
  unfold matchCodes at hu ⊢
  rcases secondPass_cases codes (firstPass codes pendingImages).1
      (firstPass codes pendingImages).2 with ⟨hlen, hone, heq⟩ | ⟨hneg, heq⟩
  · rw [heq]
    dsimp only
    rcases hcov with h | h
    · exact foldl_mapSet_isSome _ _ _ _ h
    · rw [foldl_mapSet_mem_get _ _ _ _ h]
      rfl
  · rw [heq] at hu ⊢
    dsimp only at hu ⊢
    rcases hcov with h | h
    · exact h
    · rw [hu] at h
      exact absurd h (by simp)

theorem mapGet_mem (m : List (String × String)) (k v : String)
    (h : mapGet m k = some v) : ∃ p ∈ m, p.2 = v := by
  unfold mapGet at h
  cases hf : m.find? (fun p => p.1 = k) with
  | none => rw [hf] at h; simp at h
  | some p =>
    rw [hf] at h
    simp only [Option.map_some', Option.some.injEq] at h
    exact ⟨p, List.mem_of_find?_eq_some hf, h⟩

theorem matchCodes_single_unmatched_nil (c : String)
    (pendingImages : List ProcessedImage) :
    (matchCodes [c] pendingImages).2 = [] := by
  unfold matchCodes
  rcases secondPass_cases [c] (firstPass [c] pendingImages).1
      (firstPass [c] pendingImages).2 with ⟨-, -, heq⟩ | ⟨hneg, heq⟩
  · rw [heq]
  · rw [heq]
    dsimp only
    by_contra h
    exact hneg ⟨List.length_pos.mpr h, rfl⟩

/-! ## Claim theorems: the matcher -/

/-- C1: in the first matching pass, every pending item is assigned the
first code of the list, in the list's given order, whose trimmed value is
a character-wise prefix of the item's `originalName`; when no code's
trimmed value is such a prefix, the item is placed in the unmatched set
(and gets no assignment). -/
theorem firstPass_first_code_wins (codes : List String)
    (hcodes : ∀ c ∈ codes, jsTrim c ≠ "")
    (pendingImages : List ProcessedImage)
    (hids : (pendingImages.map (·.id)).Nodup)
    (img : ProcessedImage) (hmem : img ∈ pendingImages) :
    (∀ pre c post, codes = pre ++ c :: post →
      (∀ c' ∈ pre, ¬ jsStartsWith img.originalName (jsTrim c')) →
      jsStartsWith img.originalName (jsTrim c) →
      mapGet (firstPass codes pendingImages).1 img.id = some (jsTrim c) ∧
        img ∉ (firstPass codes pendingImages).2) ∧
    ((∀ c ∈ codes, ¬ jsStartsWith img.originalName (jsTrim c)) →
      mapGet (firstPass codes pendingImages).1 img.id = none ∧
        img ∈ (firstPass codes pendingImages).2) := by
  have hcodes' : ∀ c ∈ codes, c ≠ "" := by
    intro c hc hc0
    exact hcodes c hc (by rw [hc0]; rfl)
  constructor
  · intro pre c post hdec hpre hstart
    have hfind : codes.find? (codeMatches img) = some c := by
      rw [hdec]
      exact find?_eq_of_first (codeMatches img) pre c post hpre hstart
    refine ⟨firstPassAux_mapGet_matched codes hcodes' pendingImages [] []
      img c hmem hids hfind, ?_⟩
    intro hin
    rcases (firstPassAux_mem_unmatched codes hcodes' pendingImages [] []
        img).mp hin with hfalse | ⟨-, hnone⟩
    · exact absurd hfalse (by simp)
    · rw [hnone] at hfind
      exact absurd hfind (by simp)
  · intro hnostart
    have hfind : codes.find? (codeMatches img) = none :=
      List.find?_eq_none.mpr (fun c hc => hnostart c hc)
    constructor
    · unfold firstPass
      rw [firstPassAux_mapGet_unmatched codes pendingImages [] [] img
        hmem hids hfind]
      rfl
    · exact (firstPassAux_mem_unmatched codes hcodes' pendingImages [] []
        img).mpr (Or.inr ⟨hmem, hfind⟩)

/-- C1 witness: with codes `["B", "A"]` the item `A1.jpg` is assigned the
code `A` (the first whose trimmed value is a prefix) and is not unmatched;
with codes `["B"]` alone the same item would be unmatched. -/
theorem firstPass_first_code_wins_witness :
    mapGet (firstPass ["B", "A"]
      [{ id := "1", originalName := "A1.jpg", newName := "",
         status := .pending, errorMessage := none }]).1 "1" = some "A" ∧
    ({ id := "1", originalName := "A1.jpg", newName := "",
       status := .pending, errorMessage := none } : ProcessedImage) ∉
      (firstPass ["B", "A"]
        [{ id := "1", originalName := "A1.jpg", newName := "",
           status := .pending, errorMessage := none }]).2 :=
  (firstPass_first_code_wins ["B", "A"] (by decide)
      [{ id := "1", originalName := "A1.jpg", newName := "",
         status := .pending, errorMessage := none }] (by decide)
      ({ id := "1", originalName := "A1.jpg", newName := "", status := .pending, errorMessage := none } : ProcessedImage) (by decide)).1
    ["B"] "A" [] rfl (by decide) (by decide)

/-- C2: when the unmatched set after the first pass is non-empty and
exactly one code was supplied, the fallback pass assigns that single code
(trimmed) to every unmatched item; consequently with a one-element code
list every pending item ends up assigned that trimmed code and nothing is
unmatched; and when more than one code exists the fallback pass changes
nothing. -/
theorem singleCode_fallback (c : String)
    (pendingImages : List ProcessedImage) :
    (∀ m u img, u ≠ [] → img ∈ u →
        mapGet (secondPass [c] m u).1 img.id = some (jsTrim c)) ∧
    (∀ img ∈ pendingImages,
        mapGet (matchCodes [c] pendingImages).1 img.id = some (jsTrim c)) ∧
    (matchCodes [c] pendingImages).2 = [] ∧
    (∀ codes m u, 1 < (codes : List String).length →
        secondPass codes m u = (m, u)) := by
  refine ⟨?_, ?_, matchCodes_single_unmatched_nil c pendingImages, ?_⟩
  · intro m u img hu hmem
    rcases secondPass_cases [c] m u with ⟨-, -, heq⟩ | ⟨hneg, heq⟩
    · rw [heq]
      dsimp only
      exact foldl_mapSet_mem_get _ u m img hmem
    · exact absurd ⟨List.length_pos.mpr hu, rfl⟩ hneg
  · intro img hmem
    have hsome := matchCodes_presence [c] pendingImages img hmem
      (matchCodes_single_unmatched_nil c pendingImages)
    obtain ⟨v, hv⟩ := Option.isSome_iff_exists.mp hsome
    obtain ⟨p, hp, hpv⟩ := mapGet_mem _ _ _ hv
    have hval : p.2 = jsTrim c := by
      have := matchCodes_values [c] pendingImages (fun v => v = jsTrim c)
        (by intro x hx; rcases List.mem_singleton.mp hx with rfl; rfl) p hp
      exact this
    rw [hv, ← hpv, hval]
  · intro codes m u hlen
    exact secondPass_of_not_single codes m u (by omega)

/-- C2 witness: with the single code `L41086600` a pending image named
`photo1.jpg` (which does not start with the code) still ends up assigned
`L41086600` and the unmatched set is empty. -/
theorem singleCode_fallback_witness :
    mapGet (matchCodes ["L41086600"]
      [{ id := "1", originalName := "photo1.jpg", newName := "",
         status := .pending, errorMessage := none }]).1 "1" =
        some "L41086600" ∧
    (matchCodes ["L41086600"]
      [{ id := "1", originalName := "photo1.jpg", newName := "",
         status := .pending, errorMessage := none }]).2 = [] := by
  have h := singleCode_fallback "L41086600"
    [{ id := "1", originalName := "photo1.jpg", newName := "",
       status := .pending, errorMessage := none }]
  exact ⟨h.2.1 ({ id := "1", originalName := "photo1.jpg", newName := "", status := .pending, errorMessage := none } : ProcessedImage) (by decide),
    h.2.2.1⟩

/-! ## Claim theorems: code-list parsing -/

theorem map_jsTrim_filter_comm (l : List String) :
    (l.filter (fun c => jsTrim c ≠ "")).map jsTrim =
      (l.map jsTrim).filter (fun c => c ≠ "") := by
  induction l with
  | nil => rfl
  | cons a l ih =>
    rw [List.map_cons, List.filter_cons, List.filter_cons]
    by_cases h : jsTrim a = ""
    · rw [if_neg (by simp [h]), if_neg (by simp [h])]
      exact ih
    · rw [if_pos (by simp [h]), if_pos (by simp [h]), List.map_cons, ih]

/-- C8 counterexample: the parsed code list keeps the raw (untrimmed)
lines, so for the input `"  A "` it is `["  A "]`, which is not a list of
trimmed strings — it differs from the spec's description
(`specParseCodes`), which would give `["A"]`. -/
theorem parseCodes_not_trimmed :
    parseCodes "  A " = ["  A "] ∧ jsTrim "  A " ≠ "  A " ∧
      specParseCodes "  A " = ["A"] ∧
      parseCodes "  A " ≠ specParseCodes "  A " := by decide

/-- C8 amended: the parsed code list is the ordered sequence of the raw
lines (split on `'\n'`) whose trimmed value is non-empty, kept verbatim
(untrimmed, trimming being applied later at each use); its elementwise
trimmed image is exactly the spec's ordered list of trimmed non-empty
strings, and it is an ordered sublist of the split lines.  No uniqueness
constraint is enforced. -/
theorem parseCodes_amended (raw : String) :
    (parseCodes raw).map jsTrim = specParseCodes raw ∧
    (∀ c ∈ parseCodes raw, jsTrim c ≠ "") ∧
    (parseCodes raw).Sublist (jsSplitNewline raw) := by
  refine ⟨map_jsTrim_filter_comm (jsSplitNewline raw), ?_, List.filter_sublist _⟩
  intro c hc
  have := (List.mem_filter.mp hc).2
  simpa using this

/-- C8 amended witness: on the input `" a \nb\n\n"` the parsed list is
`[" a ", "b"]` (duplicating the non-blank lines verbatim) and its trimmed
image `["a", "b"]` is the spec's list. -/
theorem parseCodes_amended_witness :
    (parseCodes " a \nb\n\n").map jsTrim = specParseCodes " a \nb\n\n" ∧
      jsTrim " a " ≠ "" :=
  ⟨(parseCodes_amended " a \nb\n\n").1,
    (parseCodes_amended " a \nb\n\n").2.1 " a " (by decide)⟩

/-! ## Lemmas about the processing run -/

theorem resolveImage_id (m : List (String × String))
    (outcome : String → String → RenameOutcome) (image img : ProcessedImage) :
    (resolveImage m outcome image img).id = img.id := by
  unfold resolveImage
  cases mapGet m image.id with
  | none => rfl
  | some c =>
    dsimp only
    by_cases hc : c = ""
    · rw [if_pos hc]
    · rw [if_neg hc]
      cases outcome image.id c <;> rfl

theorem resolveImage_status (m : List (String × String))
    (outcome : String → String → RenameOutcome) (image img : ProcessedImage) :
    (resolveImage m outcome image img).status = .completed ∨
      (resolveImage m outcome image img).status = .error := by
  unfold resolveImage
  cases mapGet m image.id with
  | none => right; rfl
  | some c =>
    dsimp only
    by_cases hc : c = ""
    · rw [if_pos hc]; right; rfl
    · rw [if_neg hc]
      cases outcome image.id c
      · left; rfl
      · right; rfl

theorem foldl_stepUpdate_eq_map (m : List (String × String))
    (outcome : String → String → RenameOutcome) :
    ∀ (order : List ProcessedImage) (s : List ProcessedImage),
      order.foldl (stepUpdate m outcome) s = s.map (applyAll m outcome order) := by
  intro order
  induction order with
  | nil =>
    intro s
    simp only [List.foldl_nil]
    have h : s.map (applyAll m outcome []) = s.map id :=
      List.map_congr_left (fun a _ => rfl)
    rw [h, List.map_id]
  | cons x order ih =>
    intro s
    rw [List.foldl_cons, ih]
    unfold stepUpdate updateById
    rw [List.map_map]
    apply List.map_congr_left
    intro a _
    rfl

theorem applyAll_of_no_id (m : List (String × String))
    (outcome : String → String → RenameOutcome) :
    ∀ (order : List ProcessedImage) (img : ProcessedImage),
      (∀ x ∈ order, img.id ≠ x.id) → applyAll m outcome order img = img := by
  intro order
  induction order with
  | nil => intro img _; rfl
  | cons x order ih =>
    intro img h
    have hx : img.id ≠ x.id := h x (by simp)
    show List.foldl _ (if img.id = x.id then _ else img) order = img
    rw [if_neg hx]
    exact ih img (fun y hy => h y (by simp [hy]))

theorem applyAll_single_hit (m : List (String × String))
    (outcome : String → String → RenameOutcome) :
    ∀ (l1 : List ProcessedImage) (image : ProcessedImage)
      (l2 : List ProcessedImage) (img : ProcessedImage),
      img.id = image.id → (∀ x ∈ l1, img.id ≠ x.id) →
      (∀ x ∈ l2, img.id ≠ x.id) →
      applyAll m outcome (l1 ++ image :: l2) img =
        resolveImage m outcome image img := by
  intro l1
  induction l1 with
  | nil =>
    intro image l2 img hid h1 h2
    show List.foldl _ (if img.id = image.id then _ else img) l2 = _
    rw [if_pos hid]
    refine applyAll_of_no_id m outcome l2 _ ?_
    intro x hx
    rw [resolveImage_id]
    exact h2 x hx
  | cons y l1 ih =>
    intro image l2 img hid h1 h2
    have hy : img.id ≠ y.id := h1 y (by simp)
    show List.foldl _ (if img.id = y.id then _ else img) (l1 ++ image :: l2) = _
    rw [if_neg hy]
    exact ih image l2 img hid (fun x hx => h1 x (by simp [hx])) h2

theorem finalState_eq (m : List (String × String))
    (outcome : String → String → RenameOutcome)
    (images order : List ProcessedImage)
    (hids : (images.map (·.id)).Nodup)
    (hord : order.Perm (images.filter (fun img => img.status = .pending))) :
    finalState m outcome images order = images.map (fun img =>
      if img.status = .pending
      then resolveImage m outcome img { img with status := .processing }
      else img) := by
  unfold finalState markProcessing
  rw [foldl_stepUpdate_eq_map, List.map_map]
  apply List.map_congr_left
  intro img himg
  simp only [Function.comp]
  by_cases hp : img.status = .pending
  · rw [if_pos hp, if_pos hp]
    have himgp : img ∈ images.filter (fun i => i.status = .pending) :=
      List.mem_filter.mpr ⟨himg, by simp [hp]⟩
    have himgo : img ∈ order := hord.mem_iff.mpr himgp
    obtain ⟨l1, l2, hdec⟩ := List.append_of_mem himgo
    have hndf : ((images.filter (fun i => i.status = .pending)).map (·.id)).Nodup :=
      ((List.filter_sublist images).map (·.id)).nodup hids
    have hnd : (order.map (·.id)).Nodup := (hord.map (·.id)).symm.nodup hndf
    rw [hdec, List.map_append, List.map_cons] at hnd
    have hsplit := List.nodup_append.mp hnd
    have hdisj := hsplit.2.2
    have hr := hsplit.2.1
    have h1 : ∀ x ∈ l1, img.id ≠ x.id := by
      intro x hx hxe
      have hmem1 : x.id ∈ l1.map (·.id) := List.mem_map.mpr ⟨x, hx, rfl⟩
      have hnotr : x.id ∉ img.id :: l2.map (·.id) := hdisj hmem1
      exact hnotr (by rw [← hxe]; exact List.mem_cons_self _ _)
    have h2 : ∀ x ∈ l2, img.id ≠ x.id := by
      intro x hx hxe
      exact (List.nodup_cons.mp hr).1
        (by rw [hxe]; exact List.mem_map.mpr ⟨x, hx, rfl⟩)
    rw [hdec]
    exact applyAll_single_hit m outcome l1 img l2 _ rfl h1 h2
  · rw [if_neg hp, if_neg hp]
    apply applyAll_of_no_id
    intro x hx hxid
    have hxp := hord.mem_iff.mp hx
    have hxi : x ∈ images := (List.mem_filter.mp hxp).1
    have hxpend : x.status = .pending := by
      simpa using (List.mem_filter.mp hxp).2
    have hxe : img = x := List.inj_on_of_nodup_map hids himg hxi hxid
    rw [hxe] at hp
    exact hp hxpend

theorem scanStates_shape {α β : Type} (f : α → β → α) (b : α) (l : List β) :
    ∃ t, scanStates f b l = b :: t := by
  cases l with
  | nil => exact ⟨[], rfl⟩
  | cons x xs => exact ⟨scanStates f (f b x) xs, rfl⟩

theorem scanStates_getLast? {α β : Type} (f : α → β → α) :
    ∀ (l : List β) (b : α), (scanStates f b l).getLast? = some (l.foldl f b) := by
  intro l
  induction l with
  | nil => intro b; rfl
  | cons x xs ih =>
    intro b
    obtain ⟨t, ht⟩ := scanStates_shape f (f b x) xs
    show (b :: scanStates f (f b x) xs).getLast? = _
    rw [ht, List.getLast?_cons_cons, ← ht, ih (f b x)]
    rfl

theorem runTrace_getLast? (m : List (String × String))
    (outcome : String → String → RenameOutcome)
    (images order : List ProcessedImage) :
    (runTrace m outcome images order).getLast? =
      some (finalState m outcome images order) := by
  unfold runTrace finalState
  obtain ⟨t, ht⟩ :=
    scanStates_shape (stepUpdate m outcome) (markProcessing images) order
  rw [ht, List.getLast?_cons_cons, ← ht]
  exact scanStates_getLast? _ order _

theorem handler_cleared_inv (itemCodes : String)
    (images : List ProcessedImage)
    (outcome : String → String → RenameOutcome)
    (order : List ProcessedImage) (trace : List (List ProcessedImage))
    (hrun : handleProcessImages itemCodes images outcome order =
      (.cleared, trace)) :
    images.filter (fun img => img.status = .pending) ≠ [] ∧
    parseCodes itemCodes ≠ [] ∧
    (matchCodes (parseCodes itemCodes)
      (images.filter (fun img => img.status = .pending))).2 = [] ∧
    trace = runTrace (matchCodes (parseCodes itemCodes)
      (images.filter (fun img => img.status = .pending))).1
        outcome images order := by
  unfold handleProcessImages at hrun
  by_cases h1 : (images.filter (fun img => img.status = .pending)).length = 0
  · rw [if_pos h1] at hrun
    exact absurd (congrArg Prod.fst hrun) (by simp)
  · rw [if_neg h1] at hrun
    by_cases h2 : (parseCodes itemCodes).length = 0
    · rw [if_pos h2] at hrun
      exact absurd (congrArg Prod.fst hrun) (by simp)
    · rw [if_neg h2] at hrun
      by_cases h3 : (matchCodes (parseCodes itemCodes)
          (images.filter (fun img => img.status = .pending))).2.length > 0
      · rw [if_pos h3] at hrun
        exact absurd (congrArg Prod.fst hrun) (by simp)
      · rw [if_neg h3] at hrun
        refine ⟨fun h => h1 (by rw [h]; rfl), fun h => h2 (by rw [h]; rfl),
          List.length_eq_zero.mp (by omega), ?_⟩
        exact (congrArg Prod.snd hrun).symm

theorem find?_id_self (images : List ProcessedImage) (img : ProcessedImage)
    (hids : (images.map (·.id)).Nodup) (hmem : img ∈ images) :
    images.find? (fun x => x.id = img.id) = some img := by
  cases hf : images.find? (fun x => x.id = img.id) with
  | none =>
    rw [List.find?_eq_none] at hf
    exact absurd (by simp : decide (img.id = img.id) = true)
      (by simpa using hf img hmem)
  | some x =>
    have hx : x.id = img.id := by simpa using List.find?_some hf
    have hxm := List.mem_of_find?_eq_some hf
    rw [List.inj_on_of_nodup_map hids hxm hmem hx]

theorem findById_map (images : List ProcessedImage)
    (F : ProcessedImage → ProcessedImage) (img : ProcessedImage)
    (hids : (images.map (·.id)).Nodup) (hmem : img ∈ images)
    (hFid : ∀ x, (F x).id = x.id) :
    findById (images.map F) img.id = some (F img) := by
  unfold findById
  rw [List.find?_map]
  have hpred : ((fun i => decide (i.id = img.id)) ∘ F) =
      (fun x => decide (x.id = img.id)) := by
    funext x
    simp [Function.comp, hFid x]
  rw [hpred, find?_id_self images img hids hmem]
  rfl

theorem mem_parseCodes_trim_ne (itemCodes c : String)
    (hc : c ∈ parseCodes itemCodes) : jsTrim c ≠ "" := by
  have := (List.mem_filter.mp hc).2
  simpa using this

theorem internalErrorMsg_ne (image : ProcessedImage) :
    internalErrorMsg image ≠ "" := by
  unfold internalErrorMsg
  intro h
  have hdata := congrArg String.data h
  rw [String.data_append, String.data_append,
    show ("." : String).data = ['.'] from rfl] at hdata
  simp at hdata

theorem wellFormed_conjuncts (r : ProcessedImage) (h : wellFormed r) :
    ((r.status = .completed ∨ r.status = .error) → exactlyOneSet r) ∧
    ((r.status = .pending ∨ r.status = .processing) →
      r.newName = "" ∧ r.errorMessage = none) ∧
    ¬ bothSet r := by
  unfold wellFormed at h
  cases hs : r.status <;> rw [hs] at h <;> dsimp only at h
  · exact ⟨fun hc => by rcases hc with hc | hc <;> exact Status.noConfusion hc,
      fun _ => h, fun hb => hb.1 h.1⟩
  · exact ⟨fun hc => by rcases hc with hc | hc <;> exact Status.noConfusion hc,
      fun _ => h, fun hb => hb.1 h.1⟩
  · refine ⟨fun _ => Or.inl ⟨h.1, ?_⟩,
      fun hc => by rcases hc with hc | hc <;> exact Status.noConfusion hc,
      fun hb => ?_⟩
    · unfold errNonempty
      rw [h.2]
    · have hb2 := hb.2
      unfold errNonempty at hb2
      rw [h.2] at hb2
      exact absurd hb2 (by simp)
  · obtain ⟨hn, msg, hm, hne⟩ := h
    refine ⟨fun _ => Or.inr ⟨hn, ?_⟩,
      fun hc => by rcases hc with hc | hc <;> exact Status.noConfusion hc,
      fun hb => hb.1 hn⟩
    unfold errNonempty
    rw [hm]
    simpa using hne

theorem resolveImage_wellFormed (M : List (String × String))
    (outcome : String → String → RenameOutcome) (img : ProcessedImage)
    (hn : img.newName = "") (he : img.errorMessage = none)
    (hout : ∀ imgId code, goodOutcome (outcome imgId code)) :
    wellFormed (resolveImage M outcome img { img with status := .processing }) := by
  unfold resolveImage
  cases hget : mapGet M img.id with
  | none =>
    exact ⟨hn, internalErrorMsg img, rfl, internalErrorMsg_ne img⟩
  | some code =>
    dsimp only
    by_cases hc : code = ""
    · rw [if_pos hc]
      exact ⟨hn, internalErrorMsg img, rfl, internalErrorMsg_ne img⟩
    · rw [if_neg hc]
      cases ho : outcome img.id code with
      | success name =>
        have hg := hout img.id code
        rw [ho] at hg
        exact ⟨hg, he⟩
      | failure e =>
        have hg := hout img.id code
        rw [ho] at hg
        refine ⟨hn, failureMessage e, rfl, ?_⟩
        cases e with
        | none =>
          unfold failureMessage
          decide
        | some msg =>
          unfold failureMessage
          exact hg msg rfl

theorem runMap_id (M : List (String × String))
    (outcome : String → String → RenameOutcome) :
    ∀ x : ProcessedImage,
      ((fun img => if img.status = .pending
        then resolveImage M outcome img { img with status := .processing }
        else img) x).id = x.id := by
  intro x
  by_cases hx : x.status = .pending
  · simp only [if_pos hx]
    rw [resolveImage_id]
  · simp only [if_neg hx]

theorem finalState_length (m : List (String × String))
    (outcome : String → String → RenameOutcome)
    (images order : List ProcessedImage)
    (hids : (images.map (·.id)).Nodup)
    (hord : order.Perm (images.filter (fun img => img.status = .pending))) :
    (finalState m outcome images order).length = images.length := by
  rw [finalState_eq m outcome images order hids hord, List.length_map]

theorem finalState_frame (m : List (String × String))
    (outcome : String → String → RenameOutcome)
    (images order : List ProcessedImage)
    (hids : (images.map (·.id)).Nodup)
    (hord : order.Perm (images.filter (fun img => img.status = .pending)))
    (img : ProcessedImage) (hmem : img ∈ images)
    (hnp : img.status ≠ .pending) :
    findById (finalState m outcome images order) img.id = some img := by
  rw [finalState_eq m outcome images order hids hord,
    findById_map images _ img hids hmem (runMap_id m outcome)]
  simp only [if_neg hnp]

theorem markProcessing_noPending (imgs : List ProcessedImage) :
    noPending (markProcessing imgs) := by
  intro i hi
  obtain ⟨x, hx, rfl⟩ := List.mem_map.mp hi
  by_cases hs : x.status = .pending
  · rw [if_pos hs]
    exact fun h => Status.noConfusion h
  · rw [if_neg hs]
    exact hs

theorem stepUpdate_noPending (m : List (String × String))
    (outcome : String → String → RenameOutcome)
    (s : List ProcessedImage) (image : ProcessedImage)
    (h : noPending s) : noPending (stepUpdate m outcome s image) := by
  intro i hi
  obtain ⟨x, hx, rfl⟩ := List.mem_map.mp hi
  by_cases hid : x.id = image.id
  · rw [if_pos hid]
    intro hc
    rcases resolveImage_status m outcome image x with hs | hs <;>
      rw [hs] at hc <;> exact Status.noConfusion hc
  · rw [if_neg hid]
    exact h x hx

theorem noPending_stepOK (s s' : List ProcessedImage) (h : noPending s) :
    stepOK s s' := by
  intro i hi i' hi' _ hp
  exact absurd hp (h i hi)

theorem chain_scanStates {α β : Type} (R : α → α → Prop) (inv : α → Prop)
    (f : α → β → α)
    (hstep : ∀ s x, inv s → R s (f s x) ∧ inv (f s x)) :
    ∀ (l : List β) (b : α), inv b → List.Chain' R (scanStates f b l) := by
  intro l
  induction l with
  | nil => intro b _; simp [scanStates]
  | cons x xs ih =>
    intro b hb
    show List.Chain' R (b :: scanStates f (f b x) xs)
    obtain ⟨t, ht⟩ := scanStates_shape f (f b x) xs
    rw [ht, List.chain'_cons, ← ht]
    exact ⟨(hstep b x hb).1, ih (f b x) (hstep b x hb).2⟩

/-! ## Claim theorems: the process action -/

/-- C9: when no item is pending, the process action returns immediately:
no error is reported — even when the code list is empty or blank — and no
state changes (the trace is the single unchanged collection). -/
theorem noop_without_pending (itemCodes : String)
    (images : List ProcessedImage)
    (outcome : String → String → RenameOutcome)
    (order : List ProcessedImage)
    (hpend : images.filter (fun img => img.status = .pending) = []) :
    handleProcessImages itemCodes images outcome order =
      (.untouched, [images]) := by
  unfold handleProcessImages
  rw [if_pos (by rw [hpend]; rfl)]

/-- C9 witness: one already-completed image and blank code input — the
action reports nothing and leaves the collection unchanged. -/
theorem noop_without_pending_witness :
    handleProcessImages "" [{ id := "1", originalName := "a.jpg", newName := "done.jpg", status := .completed, errorMessage := none }] (fun _ _ => .success "x") [] =
      (.untouched, [[{ id := "1", originalName := "a.jpg", newName := "done.jpg", status := .completed, errorMessage := none }]]) :=
  noop_without_pending "" _ _ _ (by decide)

/-- C7 amended: when the code list parses to empty AND at least one item
is pending, the NoCodesProvided error (`noCodesMsg`) is reported before
any matching is attempted, no processing starts and no item changes
state.  (When no item is pending the action instead returns silently
without reporting the error — see the counterexample.) -/
theorem noCodes_reported (itemCodes : String)
    (images : List ProcessedImage)
    (outcome : String → String → RenameOutcome)
    (order : List ProcessedImage)
    (hpend : images.filter (fun img => img.status = .pending) ≠ [])
    (hcodes : parseCodes itemCodes = []) :
    handleProcessImages itemCodes images outcome order =
      (.set noCodesMsg, [images]) := by
  unfold handleProcessImages
  rw [if_neg (fun h => hpend (List.length_eq_zero.mp h)),
    if_pos (by rw [hcodes]; rfl)]

/-- C7 counterexample: an invocation with a blank code list but no pending
item reports nothing at all — the claim demands a NoCodesProvided error
for every invocation whose code list is empty. -/
theorem noCodes_not_reported_without_pending :
    parseCodes "" = [] ∧
    handleProcessImages "" [] (fun _ _ => .success "x") [] =
      (.untouched, [[]]) ∧
    ErrOut.untouched ≠ ErrOut.set noCodesMsg := by decide

/-- C7 amended witness: blank code input with one pending image — the
NoCodesProvided error is reported and the collection is untouched. -/
theorem noCodes_reported_witness :
    handleProcessImages "  \n " [{ id := "1", originalName := "a.jpg", newName := "", status := .pending, errorMessage := none }] (fun _ _ => .success "x") [] =
      (.set noCodesMsg, [[{ id := "1", originalName := "a.jpg", newName := "", status := .pending, errorMessage := none }]]) :=
  noCodes_reported "  \n " _ _ _ (by decide) (by decide)

/-- C3: when items remain unmatched after both passes the operation
fails: the reported error message is built from the first up-to-3
unmatched original filenames joined by `", "` plus an `" and N more"`
count of the remainder, and the collection is left untouched — no partial
matching is applied and no processing starts. -/
theorem unmatched_aborts (itemCodes : String) (images : List ProcessedImage)
    (outcome : String → String → RenameOutcome)
    (order u : List ProcessedImage)
    (hpend : images.filter (fun img => img.status = .pending) ≠ [])
    (hcodes : parseCodes itemCodes ≠ [])
    (hu2 : (matchCodes (parseCodes itemCodes)
      (images.filter (fun img => img.status = .pending))).2 = u)
    (hu : u ≠ []) :
    handleProcessImages itemCodes images outcome order =
      (.set (unmatchedMsg u), [images]) ∧
    unmatchedMsg u =
      "Could not find a matching item code for some images (e.g., " ++
        String.intercalate ", " ((u.map (·.originalName)).take 3) ++
        (if u.length > 3 then " and " ++ toString (u.length - 3) ++ " more"
          else "") ++
        "). Please ensure image filenames start with a provided item code, or provide only one item code to apply to all images." := by
  refine ⟨?_, rfl⟩
  unfold handleProcessImages
  rw [if_neg (fun h => hpend (List.length_eq_zero.mp h)),
    if_neg (fun h => hcodes (List.length_eq_zero.mp h)), hu2,
    if_pos (List.length_pos.mpr hu)]

/-- C3 witness: codes `A`, `B` and a single pending image `C.jpg` matching
neither — the run aborts with the unmatched-images error naming `C.jpg`
and the collection is untouched. -/
theorem unmatched_aborts_witness :
    handleProcessImages "A\nB" [{ id := "1", originalName := "C.jpg", newName := "", status := .pending, errorMessage := none }] (fun _ _ => .success "x") [] =
      (.set (unmatchedMsg [{ id := "1", originalName := "C.jpg", newName := "", status := .pending, errorMessage := none }]),
        [[{ id := "1", originalName := "C.jpg", newName := "", status := .pending, errorMessage := none }]]) :=
  (unmatched_aborts "A\nB" _ _ _
    [{ id := "1", originalName := "C.jpg", newName := "", status := .pending, errorMessage := none }]
    (by decide) (by decide) (by decide) (by decide)).1

/-- C10: a processing run mutates only the items that were pending when it
started: the final collection has the same length, and every item that was
not pending (already completed, errored or processing) is present with
every field unchanged at its id — each asynchronous update replaces only
the single record whose id it targets.  Ids are assumed pairwise distinct
(the source builds them from filename, timestamp and a random number) and
the resolution order is a permutation of the pending items. -/
theorem frame_nonpending (itemCodes : String) (images : List ProcessedImage)
    (outcome : String → String → RenameOutcome)
    (order : List ProcessedImage) (trace : List (List ProcessedImage))
    (final : List ProcessedImage)
    (hids : (images.map (·.id)).Nodup)
    (hord : order.Perm (images.filter (fun img => img.status = .pending)))
    (hrun : handleProcessImages itemCodes images outcome order =
      (.cleared, trace))
    (hfin : trace.getLast? = some final) :
    final.length = images.length ∧
    ∀ img ∈ images, img.status ≠ .pending →
      findById final img.id = some img := by
  obtain ⟨-, -, -, htrace⟩ := handler_cleared_inv _ _ _ _ _ hrun
  subst htrace
  rw [runTrace_getLast?] at hfin
  have hfin2 := Option.some.inj hfin
  subst hfin2
  exact ⟨finalState_length _ _ _ _ hids hord,
    fun img hmem hnp => finalState_frame _ _ _ _ hids hord img hmem hnp⟩

/-- C10 witness: a run over one completed and one pending image leaves the
completed record present and untouched. -/
theorem frame_nonpending_witness :
    ([w10done, { w10pend with status := .completed, newName := "New.jpg" }] : List ProcessedImage).length =
      ([w10done, w10pend] : List ProcessedImage).length ∧
    findById [w10done, { w10pend with status := .completed, newName := "New.jpg" }] w10done.id =
      some w10done := by
  have h := frame_nonpending "A" [w10done, w10pend]
    (fun _ _ => .success "New.jpg") [w10pend]
    [[w10done, w10pend],
      [w10done, { w10pend with status := .processing }],
      [w10done, { w10pend with status := .completed, newName := "New.jpg" }]]
    [w10done, { w10pend with status := .completed, newName := "New.jpg" }]
    (by decide) (List.Perm.refl _) (by decide) (by decide)
  exact ⟨h.1, h.2 w10done (by decide) (by decide)⟩

/-- C5: in a run, every pending item has an assigned non-empty code, and
its final record is determined solely by its own call's outcome: on
success it is `completed` with `newName` the returned name trimmed; on
failure it is `error` with `errorMessage` the failure's message, the
generic fallback standing in when the failure carries none.  The final
collection is a per-item map of the initial one, so each item is resolved
exactly once and one item's failure never affects another item. -/
theorem resolve_outcomes (itemCodes : String) (images : List ProcessedImage)
    (outcome : String → String → RenameOutcome)
    (order : List ProcessedImage) (trace : List (List ProcessedImage))
    (final : List ProcessedImage) (M : List (String × String))
    (hids : (images.map (·.id)).Nodup)
    (hord : order.Perm (images.filter (fun img => img.status = .pending)))
    (hrun : handleProcessImages itemCodes images outcome order =
      (.cleared, trace))
    (hfin : trace.getLast? = some final)
    (hM : matchCodes (parseCodes itemCodes)
      (images.filter (fun img => img.status = .pending)) = (M, [])) :
    final = images.map (fun img =>
      if img.status = .pending
      then resolveImage M outcome img { img with status := .processing }
      else img) ∧
    failureMessage none = "An unknown error occurred during processing." ∧
    ∀ img ∈ images, img.status = .pending →
      ∃ code, mapGet M img.id = some code ∧ code ≠ "" ∧
        (∀ name, outcome img.id code = .success name →
          findById final img.id =
            some { img with status := .completed, newName := jsTrim name }) ∧
        (∀ e, outcome img.id code = .failure e →
          findById final img.id =
            some { img with status := .error, errorMessage := some (failureMessage e) }) := by
  obtain ⟨-, -, -, htrace⟩ := handler_cleared_inv _ _ _ _ _ hrun
  have hM1 : (matchCodes (parseCodes itemCodes)
      (images.filter (fun img => img.status = .pending))).1 = M :=
    congrArg Prod.fst hM
  rw [hM1] at htrace
  subst htrace
  rw [runTrace_getLast?] at hfin
  have hfin2 := Option.some.inj hfin
  rw [finalState_eq M outcome images order hids hord] at hfin2
  subst hfin2
  refine ⟨rfl, rfl, ?_⟩
  intro img hmem hp
  have hpf : img ∈ images.filter (fun img => img.status = .pending) :=
    List.mem_filter.mpr ⟨hmem, by simp [hp]⟩
  have hsome : (mapGet M img.id).isSome := by
    have hpres := matchCodes_presence (parseCodes itemCodes) _ img hpf
      (congrArg Prod.snd hM)
    rwa [hM1] at hpres
  obtain ⟨code, hcode⟩ := Option.isSome_iff_exists.mp hsome
  have hcne : code ≠ "" := by
    obtain ⟨p, hpm, hp2⟩ := mapGet_mem _ _ _ hcode
    have hv := matchCodes_values (parseCodes itemCodes)
      (images.filter (fun img => img.status = .pending)) (fun v => v ≠ "")
      (fun c hc => mem_parseCodes_trim_ne _ c hc) p (by rw [hM1]; exact hpm)
    rw [← hp2]
    exact hv
  refine ⟨code, hcode, hcne, ?_, ?_⟩
  · intro name ho
    rw [findById_map images _ img hids hmem (runMap_id M outcome)]
    simp only [if_pos hp]
    unfold resolveImage
    rw [hcode]
    dsimp only
    rw [if_neg hcne, ho]
  · intro e ho
    rw [findById_map images _ img hids hmem (runMap_id M outcome)]
    simp only [if_pos hp]
    unfold resolveImage
    rw [hcode]
    dsimp only
    rw [if_neg hcne, ho]

/-- C5 witness: with the single code `A` and the pending image `A1.jpg`,
the run's final collection is the per-item map of the initial one. -/
theorem resolve_outcomes_witness :
    ([{ w5img with status := .completed, newName := "New.jpg" }] : List ProcessedImage) =
      [w5img].map (fun img =>
        if img.status = .pending
        then resolveImage [("p5", "A")] (fun _ _ => .success "New.jpg") img
          { img with status := .processing }
        else img) :=
  (resolve_outcomes "A" [w5img] (fun _ _ => .success "New.jpg") [w5img]
    [[w5img], [{ w5img with status := .processing }],
      [{ w5img with status := .completed, newName := "New.jpg" }]]
    [{ w5img with status := .completed, newName := "New.jpg" }]
    [("p5", "A")]
    (by decide) (List.Perm.refl _) (by decide) (by decide) (by decide)).1

/-- C4 counterexample: the external service may resolve with a
whitespace-only name; the affected item then reaches the terminal
`completed` status with an empty `newName` and no `errorMessage`, so
neither field is set — refuting "exactly one of `newName` or
`errorMessage` is set once status reaches a terminal state". -/
theorem terminal_invariant_fails :
    (handleProcessImages "A" [cx4img]
      (fun _ _ => .success "  ") [cx4img]).2.getLast? = some [cx4res] ∧
    cx4res.status = .completed ∧ ¬ exactlyOneSet cx4res := by
  refine ⟨by decide, by decide, ?_⟩
  unfold exactlyOneSet errNonempty cx4res
  decide

/-- C4 amended: provided the external service returns names that are
non-empty after trimming and failures that carry non-empty messages
(`goodOutcome`), and given well-formed initial records with distinct ids,
every record after a processing run satisfies the invariant: a terminal
record (`completed`/`error`) has exactly one of `newName` (non-empty) or
`errorMessage` (non-empty) set, a `pending`/`processing` record has
neither, and no record has both set. -/
theorem run_invariant (itemCodes : String) (images : List ProcessedImage)
    (outcome : String → String → RenameOutcome)
    (order : List ProcessedImage) (trace : List (List ProcessedImage))
    (final : List ProcessedImage)
    (hids : (images.map (·.id)).Nodup)
    (hwf : ∀ img ∈ images, wellFormed img)
    (hout : ∀ imgId code, goodOutcome (outcome imgId code))
    (hord : order.Perm (images.filter (fun img => img.status = .pending)))
    (hrun : handleProcessImages itemCodes images outcome order =
      (.cleared, trace))
    (hfin : trace.getLast? = some final) :
    ∀ img ∈ final,
      ((img.status = .completed ∨ img.status = .error) → exactlyOneSet img) ∧
      ((img.status = .pending ∨ img.status = .processing) →
        img.newName = "" ∧ img.errorMessage = none) ∧
      ¬ bothSet img := by
  obtain ⟨-, -, -, htrace⟩ := handler_cleared_inv _ _ _ _ _ hrun
  subst htrace
  rw [runTrace_getLast?] at hfin
  have hfin2 := Option.some.inj hfin
  rw [finalState_eq _ outcome images order hids hord] at hfin2
  subst hfin2
  intro img' himg'
  obtain ⟨img, hmem, rfl⟩ := List.mem_map.mp himg'
  by_cases hp : img.status = .pending
  · simp only [if_pos hp]
    have hne : img.newName = "" ∧ img.errorMessage = none := by
      have hwfi := hwf img hmem
      unfold wellFormed at hwfi
      rw [hp] at hwfi
      exact hwfi
    exact wellFormed_conjuncts _
      (resolveImage_wellFormed _ outcome img hne.1 hne.2 hout)
  · simp only [if_neg hp]
    exact wellFormed_conjuncts img (hwf img hmem)

/-- C4 amended witness: a successful run over one pending image with a
well-behaved outcome — the final record is `completed` and satisfies the
invariant. -/
theorem run_invariant_witness :
    ((wx4res.status = .completed ∨ wx4res.status = .error) →
      exactlyOneSet wx4res) ∧
    ((wx4res.status = .pending ∨ wx4res.status = .processing) →
      wx4res.newName = "" ∧ wx4res.errorMessage = none) ∧
    ¬ bothSet wx4res :=
  (run_invariant "A" [wx4img] (fun _ _ => .success "New.jpg") [wx4img]
      [[wx4img], [{ wx4img with status := .processing }], [wx4res]] [wx4res]
      (by decide)
      (fun img him => by rcases List.mem_singleton.mp him with rfl; exact ⟨rfl, rfl⟩)
      (fun _ _ => (by decide : jsTrim "New.jpg" ≠ ""))
      (List.Perm.refl _) (by decide) (by decide))
    wx4res (by decide)

/-- C6: every run's trace is the initial collection followed by the batch
state in which all pending items have been switched to `processing`, and
only then the per-resolution states — every pending item is `processing`
before any call result is observed; and across every pair of successive
trace states no record moves from `pending` directly to `completed` or
`error` (after the batch switch no record is `pending` at all). -/
theorem processing_before_results (itemCodes : String)
    (images : List ProcessedImage)
    (outcome : String → String → RenameOutcome)
    (order : List ProcessedImage) (trace : List (List ProcessedImage))
    (hids : (images.map (·.id)).Nodup)
    (hrun : handleProcessImages itemCodes images outcome order =
      (.cleared, trace)) :
    (∃ rest, trace = images :: markProcessing images :: rest) ∧
    (∀ img ∈ images, img.status = .pending →
      ({ img with status := .processing } : ProcessedImage) ∈
        markProcessing images) ∧
    List.Chain' stepOK trace := by
  obtain ⟨-, -, -, htrace⟩ := handler_cleared_inv _ _ _ _ _ hrun
  subst htrace
  obtain ⟨t, ht⟩ := scanStates_shape
    (stepUpdate (matchCodes (parseCodes itemCodes)
      (images.filter (fun img => img.status = .pending))).1 outcome)
    (markProcessing images) order
  refine ⟨⟨t, by unfold runTrace; rw [ht]⟩, ?_, ?_⟩
  · intro img hmem hp
    exact List.mem_map.mpr ⟨img, hmem, by rw [if_pos hp]⟩
  · show List.Chain' stepOK
      (images :: scanStates _ (markProcessing images) order)
    have hchain : List.Chain' stepOK
        (scanStates (stepUpdate (matchCodes (parseCodes itemCodes)
          (images.filter (fun img => img.status = .pending))).1 outcome)
          (markProcessing images) order) :=
      chain_scanStates stepOK noPending _
        (fun s x hs =>
          ⟨noPending_stepOK s _ hs, stepUpdate_noPending _ _ s x hs⟩)
        order _ (markProcessing_noPending images)
    rw [List.chain'_cons']
    refine ⟨?_, hchain⟩
    intro y hy
    rw [ht] at hy
    simp only [List.head?_cons, Option.mem_def, Option.some.injEq] at hy
    subst hy
    intro i hi i' hi' hid hp
    obtain ⟨x, hx, rfl⟩ := List.mem_map.mp hi'
    have hmark_id : ((fun img => if img.status = .pending
        then { img with status := Status.processing } else img) x).id = x.id := by
      dsimp only
      by_cases hs : x.status = .pending
      · rw [if_pos hs]
      · rw [if_neg hs]
    have hxid : i.id = x.id := hid.trans hmark_id
    have hix : i = x := List.inj_on_of_nodup_map hids hi hx hxid
    subst hix
    right
    rw [if_pos hp]

/-- C6 witness: a one-image run — the concrete trace starts with the
initial state, then the batch processing state, then the resolution, and
its successive states satisfy the pending-to-processing-only condition. -/
theorem processing_before_results_witness :
    (∃ rest, ([[w6img], [{ w6img with status := .processing }],
        [{ w6img with status := .completed, newName := "New.jpg" }]] :
          List (List ProcessedImage)) =
      [w6img] :: markProcessing [w6img] :: rest) ∧
    List.Chain' stepOK
      [[w6img], [{ w6img with status := .processing }],
        [{ w6img with status := .completed, newName := "New.jpg" }]] := by
  have h := processing_before_results "A" [w6img]
    (fun _ _ => .success "New.jpg") [w6img]
    [[w6img], [{ w6img with status := .processing }],
      [{ w6img with status := .completed, newName := "New.jpg" }]]
    (by decide) (by decide)
  exact ⟨h.1, h.2.2⟩

section Sanity

example : parseCodes "A\n\n  \nB " = ["A", "B "] := by decide
example : parseCodes "" = [] := by decide
example : specParseCodes " A \nB" = ["A", "B"] := by decide
example : codeMatches
    { id := "1", originalName := "A1.jpg", newName := "", status := .pending,
      errorMessage := none } " A1" = true := by decide
example : mapGet (mapSet [] "i" "v") "i" = some "v" := by decide
example :
    firstPass ["A", "B"]
      [{ id := "1", originalName := "B2.png", newName := "", status := .pending,
         errorMessage := none }] =
      ([("1", "B")], []) := by decide
example :
    handleProcessImages "" [] (fun _ _ => .success "x") [] =
      (.untouched, [[]]) := by decide

end Sanity
